import Mathlib

/-!
Verification of the eadeies-extraction pipeline (shallow embedding).

Strings are modelled as lists of Unicode code points (`Str := List Nat`);
`strCp` converts a Lean string literal to this representation.  The Python
functions of `benchmark_evaluation.py` and `keep/build_structured_json.py`
are translated definition by definition below, keeping the source names.
-/

abbrev Str := List Nat

/-- Code points of a string literal, for concrete test inputs. -/
def strCp (s : String) : Str := s.data.map Char.toNat

/-- Python `str.isspace` code points (the set `str.strip()` / `str.split()`
act on): ASCII whitespace, the C1 separators, NEL, NBSP and the Unicode
space separators. -/
def isPySpace (c : Nat) : Bool :=
  (9 ≤ c && c ≤ 13) || (28 ≤ c && c ≤ 31) || c == 32 || c == 133 || c == 160 ||
  c == 5760 || (8192 ≤ c && c ≤ 8202) || c == 8232 || c == 8233 || c == 8239 ||
  c == 8287 || c == 12288

/-- Python `str.strip()`: remove whitespace from both ends. -/
def pyStrip (l : Str) : Str :=
  List.rdropWhile isPySpace (l.dropWhile isPySpace)

/-- Python `str.rstrip()`. -/
def pyRstrip (l : Str) : Str := List.rdropWhile isPySpace l

/-- Python `str.strip(ch)` for a one-character argument: remove all copies
of `ch` from both ends. -/
def pyStripChar (ch : Nat) (l : Str) : Str :=
  List.rdropWhile (fun c => c == ch) (l.dropWhile (fun c => c == ch))

/-- Python `str.split(sep)` for a one-character separator: split at every
occurrence, keeping empty pieces. -/
def splitSep (sep : Nat) : Str → List Str
  | [] => [[]]
  | c :: rest =>
    if c = sep then [] :: splitSep sep rest
    else
      match splitSep sep rest with
      | [] => [[c]]
      | h :: t => (c :: h) :: t

/-- Python `str.split(sep, 1)` on a string known to contain `sep`:
the part before the first occurrence and the part after it. -/
def splitFirst (sep : Nat) : Str → Str × Str
  | [] => ([], [])
  | c :: rest =>
    if c = sep then ([], rest)
    else
      let r := splitFirst sep rest
      (c :: r.1, r.2)

def isDigitCp (c : Nat) : Bool := 48 ≤ c && c ≤ 57

/-- Numeric value of a digit string (`[]` counts as 0, as in `float("5.")`). -/
def digitsVal : Str → Nat
  | [] => 0
  | c :: rest => (c - 48) * 10 ^ rest.length + digitsVal rest

/-- Python `float()` restricted to plain decimal literals: optional
whitespace and sign, digits with at most one dot, at least one digit.
(Exponents, underscores, `inf` and `nan` are never produced by the callers
modelled here and are not modelled; on such inputs this returns `none`.) -/
def pyFloat (s : Str) : Option ℚ :=
  let t := pyStrip s
  let sgn : ℚ := if t.head? = some 45 then -1 else 1
  let body := if t.head? = some 45 ∨ t.head? = some 43 then t.tail else t
  match splitSep 46 body with
  | [ip] =>
    if ip ≠ [] ∧ ip.all isDigitCp then some (sgn * digitsVal ip) else none
  | [ip, fp] =>
    if (ip ++ fp) ≠ [] ∧ (ip ++ fp).all isDigitCp then
      some (sgn * ((digitsVal ip : ℚ) + (digitsVal fp : ℚ) / 10 ^ fp.length))
    else none
  | _ => none

/-- The shared no-comma dot-resolution block of `parse_eu_number`
(build_structured_json.py lines 37-48) and `parse_float`
(benchmark_evaluation.py lines 181-192): identical code in both sources. -/
def resolveDots (v : Str) : Str :=
  if v.count 46 = 0 then v
  else
    let parts := splitSep 46 v
    if 1 < parts.length ∧ parts.tail.all (fun p => p.length == 3) = true then parts.flatten
    else if parts.length = 2 ∧ (parts.getD 1 []).length = 3 then
      parts.getD 0 [] ++ parts.getD 1 []
    else if parts.length = 2 ∧ 1 ≤ (parts.getD 1 []).length ∧ (parts.getD 1 []).length ≤ 2 then
      parts.getD 0 [] ++ 46 :: parts.getD 1 []
    else parts.flatten

/-- Models `parse_eu_number` (keep/build_structured_json.py lines 23-52).
`s.strip().replace(" ", "")`, placeholder guard, sign split, comma branch,
dot resolution, final `float` with the sign applied outside. -/
def parse_eu_number (s0 : Str) : Option ℚ :=
  let s := (pyStrip s0).filter (fun c => c ≠ 32)
  if s = [] ∨ s = [45] ∨ s = [45, 45] then none
  else
    let sign : ℚ := if s.head? = some 45 then -1 else 1
    let s_body := if s.head? = some 45 ∨ s.head? = some 43 then s.tail else s
    if s_body = [] then none
    else
      let num_str :=
        if s_body.contains 44 then
          let id := splitFirst 44 s_body
          id.1.filter (fun c => c ≠ 46) ++ 46 :: id.2
        else resolveDots s_body
      match pyFloat num_str with
      | some q => some (sign * q)
      | none => none

/-- Models `parse_float` (benchmark_evaluation.py lines 159-196).
`val.strip()`, the two NBSP→space replaces, empty guard, `strip('"')`,
comma branch, dot resolution, final `float`.  (The `val is None` guard is
outside the string model; the unused local `raw` is dropped.) -/
def parse_float (val : Str) : Option ℚ :=
  let v0 := (pyStrip val).map (fun c => if c = 160 then 32 else c)
  if v0 = [] then none
  else
    let v1 := pyStripChar 34 v0
    let v2 :=
      if v1.count 44 ≥ 1 then
        let id := splitFirst 44 v1
        id.1.filter (fun c => c ≠ 46) ++ 46 :: id.2
      else resolveDots v1
    pyFloat v2

/-- Models `equivalent_kaek` (benchmark_evaluation.py lines 262-280): exact match,
else no tolerance when either code contains a slash, else a single
leading-zero tolerance on either side. -/
def equivalent_kaek (a b : Str) : Bool :=
  if a = b then true
  else if a.contains 47 || b.contains 47 then false
  else if a.head? = some 48 ∧ a.tail = b then true
  else if b.head? = some 48 ∧ b.tail = a then true
  else false

/-- Accumulators of the coverage comparison loop in `evaluate`:
`cov_exact`, `cov_total` and the list `cov_diffs` of absolute differences
(from which MAE and RMSE are computed). -/
structure CovAcc where
  cov_exact : Nat
  cov_total : Nat
  cov_diffs : List ℚ
deriving DecidableEq

/-- One iteration of the coverage cell loop of `evaluate`
(benchmark_evaluation.py lines 325-337) for a single (group, metric) cell:
`gt_val` is the parsed ground-truth value (`none` when the CSV cell is
absent or unparsable), `pred_val` the prediction (`none` when missing or
non-numeric, mirroring the `isinstance(pred_val, (int, float))` test).
A cell with `gt_val = none` is skipped (`continue`); counters are touched
only inside the numeric-prediction branch. -/
def cellStep (gt_val pred_val : Option ℚ) (acc : CovAcc) : CovAcc :=
  match gt_val with
  | none => acc
  | some t =>
    match pred_val with
    | none => acc
    | some p =>
      { cov_exact := acc.cov_exact + (if |p - t| < 1 / 1000000 then 1 else 0),
        cov_total := acc.cov_total + 1,
        cov_diffs := acc.cov_diffs ++ [|p - t|] }

/-- The whole coverage loop over the (group, metric) cells in order. -/
def evalCoverageCells (cells : List (Option ℚ × Option ℚ)) : CovAcc :=
  cells.foldl (fun acc gp => cellStep gp.1 gp.2 acc) ⟨0, 0, []⟩

/-- Models `coverage_mae` aggregation (benchmark_evaluation.py line 348). -/
def coverage_mae (acc : CovAcc) : ℚ :=
  if acc.cov_diffs = [] then 0 else acc.cov_diffs.sum / acc.cov_diffs.length

def covBothP (gp : Option ℚ × Option ℚ) : Bool := gp.1.isSome && gp.2.isSome

def covExactP (gp : Option ℚ × Option ℚ) : Bool :=
  covBothP gp && decide (|gp.2.getD 0 - gp.1.getD 0| < 1 / 1000000)

def covDiffF (gp : Option ℚ × Option ℚ) : Option ℚ :=
  match gp.1, gp.2 with
  | some t, some p => some |p - t|
  | _, _ => none

/-- The 4 fixed coverage groups (both source files, `GROUPS` / `cols`). -/
def GROUPS : List Str :=
  [strCp "ΥΦΙΣΤΑΜΕΝΑ", strCp "ΝΟΜΙΜΟΠΟΙΟΥΜΕΝΑ", strCp "ΠΡΑΓΜΑΤΟΠΟΙΟΥΜΕΝΑ",
    strCp "ΣΥΝΟΛΟ"]

/-- The 7 fixed coverage metric keys (`COVERAGE_KEYS` in both sources). -/
def COVERAGE_KEYS : List Str :=
  [strCp "Εμβ. κάλυψης κτιρίου",
   strCp "Εμβ. δόμησης κτιρίου",
   strCp "Εμβ. ακάλυπτου χώρου οικοπέδου",
   strCp "Όγκος κτιρίου (άνω εδάφους)",
   strCp "Μέγιστο ύψος κτιρίου",
   strCp "Αριθμός Ορόφων",
   strCp "Αριθμός Θέσεων Στάθμευσης"]

/-- Models `orient_coverage` (keep/build_structured_json.py lines 218-226).
The input dict is an association list; `cov_map.get(key, [None]*4)` is
`lookup` with the 4-`none` default, `vals[idx]` is `getD idx none` (the
source would raise on value lists shorter than 4, so claims restrict to
4-element lists), and `v if v is not None else 0.0` is `getD 0`. -/
def orient_coverage (cov_map : List (Str × List (Option ℚ))) :
    List (Str × List (Str × ℚ)) :=
  GROUPS.enum.map (fun ic =>
    (ic.2, COVERAGE_KEYS.map (fun key =>
      (key, ((cov_map.lookup key).getD [none, none, none, none] |>.getD ic.1 none).getD 0))))

/-- Python `str.splitlines()` restricted to `\n`-separated text (the only
separator occurring in the docling exports): split at every newline, with
no trailing empty line. -/
def pySplitlines (t : Str) : List Str :=
  let ls := splitSep 10 t
  if ls.getLast? = some [] then ls.dropLast else ls

/-- Models `line.strip().startswith("|")`. -/
def startsPipe (l : Str) : Bool := (pyStrip l).head? == some 124

/-- Models `extract_docling_tables` (build_structured_json.py lines 139-151):
group maximal runs of consecutive lines whose stripped form starts with
`|`. -/
def extract_docling_tables (text : Str) : List (List Str) :=
  let r := (pySplitlines text).foldl
    (fun (acc : List (List Str) × List Str) line =>
      if startsPipe line then (acc.1, acc.2 ++ [line])
      else if acc.2 ≠ [] then (acc.1 ++ [acc.2], []) else acc)
    ([], [])
  if r.2 ≠ [] then r.1 ++ [r.2] else r.1

/-- A markdown separator row: every cell matches `^-+$`. -/
def isDashRow (row : List Str) : Bool :=
  row.all (fun p => p ≠ [] && p.all (fun c => c == 45))

/-- Models `parse_markdown_table` (build_structured_json.py lines 153-163):
rstrip each line, keep lines starting with `|`, split the `|`-trimmed
stripped line at `|`, strip each cell, and drop all-dash separator rows. -/
def parse_markdown_table (lines : List Str) : List (List Str) :=
  lines.filterMap (fun l0 =>
    let l := pyRstrip l0
    if ¬ (startsPipe l = true) then none
    else
      let parts := (splitSep 124 (pyStripChar 124 (pyStrip l))).map pyStrip
      if isDashRow parts = true then none
      else some parts)

/-- Python `str.lower` on the code points appearing in these tables:
ASCII letters and the Greek block (plain and accented capitals). -/
def pyLower (c : Nat) : Nat :=
  if 65 ≤ c ∧ c ≤ 90 then c + 32
  else if (913 ≤ c ∧ c ≤ 929) ∨ (931 ≤ c ∧ c ≤ 937) then c + 32
  else if c = 902 then 940
  else if c = 904 then 941
  else if c = 905 then 942
  else if c = 906 then 943
  else if c = 908 then 972
  else if c = 910 then 973
  else if c = 911 then 974
  else if c = 938 then 970
  else if c = 939 then 971
  else c

/-- One owner record of the structured JSON (the dict literal at
build_structured_json.py lines 192-200). -/
structure OwnerRec where
  eponymia : Str
  onoma : Str
  idiotita : Str
  pososto : ℚ
  typos : Str

/-- Models `dict(zip(header, row))` lookup with default: for duplicate header
cells the later pair wins, as in a Python dict built from `zip`. -/
def dictGet (pairs : List (Str × Str)) (key : Str) (dflt : Str) : Str :=
  (pairs.reverse.lookup key).getD dflt

/-- Does a row contain both lowered header cells `επώνυμο/ία` and
`ποσοστό`? (build_structured_json.py lines 172-177). -/
def ownerHeaderPred (row : List Str) : Bool :=
  let lowered := row.map (fun cell => cell.map pyLower)
  lowered.contains (strCp "επώνυμο/ία") && lowered.contains (strCp "ποσοστό")

/-- The per-table body of `parse_docling_owners` (build_structured_json.py
lines 168-200), applied to one parsed table: discard tables with fewer
than 2 rows, find the header row among the first 3 rows, then map the data
rows below it. -/
def ownersFromTable (tbl : List (List Str)) : List OwnerRec :=
  if tbl = [] ∨ tbl.length < 2 then []
  else
    match (tbl.take 3).findIdx? ownerHeaderPred with
    | none => []
    | some idx =>
      let header := ((tbl.take 3).getD idx []).map (fun cell => cell.map pyLower)
      let data_rows := tbl.drop (idx + 1)
      data_rows.filterMap (fun row =>
        if row.length < header.length then none
        else
          let m := fun k => dictGet (header.zip row) k []
          if pyStrip (m (strCp "επώνυμο/ία")) = [] ∧ pyStrip (m (strCp "ιδιότητα")) = [] then
            none
          else
            let raw_share := pyStrip (m (strCp "ποσοστό"))
            let share_v : ℚ :=
              if raw_share = [] then 0
              else (pyFloat (raw_share.map (fun c => if c = 44 then 46 else c))).getD 0
            some { eponymia := pyStrip (m (strCp "επώνυμο/ία")),
                   onoma := pyStrip (m (strCp "όνομα")),
                   idiotita := pyStrip (m (strCp "ιδιότητα")),
                   pososto := share_v,
                   typos := pyStrip (m (strCp "τύπος δικαιώματος")) })

/-- Models `parse_docling_owners` (build_structured_json.py lines 165-201). -/
def parse_docling_owners (text : Str) : List OwnerRec :=
  (extract_docling_tables text).foldl
    (fun acc tbl => acc ++ ownersFromTable (parse_markdown_table tbl)) []

/-- Whether `pat` is a leading segment of `s` (helper for the substring test). -/
def strStarts : Str → Str → Bool
  | [], _ => true
  | _ :: _, [] => false
  | a :: pa, b :: pb => a == b && strStarts pa pb

/-- Python `pat in s` substring containment. -/
def strContainsSub (pat : Str) : Str → Bool
  | [] => pat.isEmpty
  | c :: rest => strStarts pat (c :: rest) || strContainsSub pat rest

/-- Python dict assignment `cov[k] = v`: overwrite in place, else append. -/
def updateAssoc (m : List (Str × List (Option ℚ))) (k : Str)
    (v : List (Option ℚ)) : List (Str × List (Option ℚ)) :=
  if m.any (fun p => p.1 == k) then
    m.map (fun p => if p.1 == k then (k, v) else p)
  else m ++ [(k, v)]

/-- The per-table body of `parse_docling_coverage` (build_structured_json.py
lines 207-216) applied to one parsed table: empty tables are skipped
(`if not tbl: continue`), and every 5-cell row keyed by a coverage metric
is taken, except a first row whose second cell contains a group label. -/
def covFromTable (cov : List (Str × List (Option ℚ))) (tbl : List (List Str)) :
    List (Str × List (Option ℚ)) :=
  if tbl = [] then cov
  else
    tbl.enum.foldl (fun acc ir =>
      if ir.2.length = 5 ∧ COVERAGE_KEYS.contains (ir.2.getD 0 []) = true then
        if ir.1 = 0 ∧ ([strCp "ΥΦΙΣΤΑ", strCp "ΝΟΜΙΜ", strCp "ΠΡΑΓΜ", strCp "ΣΥΝΟΛ"].any
            (fun lab => strContainsSub lab (ir.2.getD 1 []))) = true then acc
        else updateAssoc acc (ir.2.getD 0 []) (((ir.2.drop 1).take 4).map parse_eu_number)
      else acc) cov

/-- Models `parse_docling_coverage` (build_structured_json.py lines 205-216);
the dict `cov` accumulates across all tables of the text. -/
def parse_docling_coverage (text : Str) : List (Str × List (Option ℚ)) :=
  (extract_docling_tables text).foldl
    (fun cov tbl => covFromTable cov (parse_markdown_table tbl)) []

/-- Canonical (NFD) decompositions of the precomposed accented characters
of the bilingual-name repertoire: accented Greek (tonos / dialytika) and
the common accented Latin letters.  Characters outside the table decompose
to themselves. -/
def nfdTable : List (Nat × List Nat) :=
  [(902, [913, 769]), (904, [917, 769]), (905, [919, 769]), (906, [921, 769]),
   (908, [927, 769]), (910, [933, 769]), (911, [937, 769]),
   (912, [953, 776, 769]), (938, [921, 776]), (939, [933, 776]),
   (940, [945, 769]), (941, [949, 769]), (942, [951, 769]), (943, [953, 769]),
   (944, [965, 776, 769]), (970, [953, 776]), (971, [965, 776]),
   (972, [959, 769]), (973, [965, 769]), (974, [969, 769]),
   (192, [65, 768]), (193, [65, 769]), (194, [65, 770]), (196, [65, 776]),
   (199, [67, 807]), (200, [69, 768]), (201, [69, 769]), (202, [69, 770]),
   (203, [69, 776]), (204, [73, 768]), (205, [73, 769]), (207, [73, 776]),
   (209, [78, 771]), (210, [79, 768]), (211, [79, 769]), (212, [79, 770]),
   (214, [79, 776]), (217, [85, 768]), (218, [85, 769]), (219, [85, 770]),
   (220, [85, 776]), (221, [89, 769]),
   (224, [97, 768]), (225, [97, 769]), (226, [97, 770]), (228, [97, 776]),
   (231, [99, 807]), (232, [101, 768]), (233, [101, 769]), (234, [101, 770]),
   (235, [101, 776]), (236, [105, 768]), (237, [105, 769]), (239, [105, 776]),
   (241, [110, 771]), (242, [111, 768]), (243, [111, 769]), (244, [111, 770]),
   (246, [111, 776]), (249, [117, 768]), (250, [117, 769]), (251, [117, 770]),
   (252, [117, 776]), (253, [121, 769])]

def nfdDecomp (c : Nat) : List Nat := (nfdTable.lookup c).getD [c]

/-- Unicode category Mn (combining marks) for this repertoire: the
combining diacritical block U+0300-U+036F plus U+0807-style? no —
combining cedilla 0x327 is inside the block. -/
def isMn (c : Nat) : Bool := 768 ≤ c && c ≤ 879

/-- Models `strip_accents` (benchmark_evaluation.py lines 58-60): NFD then drop
the combining marks. -/
def strip_accents (s : Str) : Str :=
  (s.flatMap nfdDecomp).filter (fun c => ¬ isMn c)

/-- Everything after the first occurrence of `sep` (`[]` when absent). -/
def afterFirst (sep : Nat) : Str → Str
  | [] => []
  | c :: rest => if c = sep then rest else afterFirst sep rest

/-- Models `re.sub(r"\([^)]*\)", " ", s)`: replace each parenthesis group (an
opening parenthesis with some closing parenthesis after it; the group
extends to the first such closing parenthesis) by one space. -/
def removeParens : Str → Str
  | [] => []
  | c :: rest =>
    if c = 40 ∧ rest.contains 41 then 32 :: removeParens (afterFirst 41 rest)
    else c :: removeParens rest
termination_by l => l.length
decreasing_by
  · have h : ∀ l : Str, (afterFirst 41 l).length ≤ l.length := by
      intro l
      induction l with
      | nil => simp [afterFirst]
      | cons a r ih =>
        simp only [afterFirst]
        split
        · simp
        · exact le_trans ih (by simp)
    exact Nat.lt_succ_of_le (h rest)
  · simp

/-- The punctuation class `[.,;&:'`-]` of the normalizer. -/
def isPunctCp (c : Nat) : Bool :=
  c == 46 || c == 44 || c == 59 || c == 38 || c == 58 || c == 39 || c == 96 || c == 45

/-- Models `re.sub(r"[.,;&:'`-]+", " ", s)`: each maximal punctuation run becomes
one space. -/
def punctRunsToSpace : Str → Str
  | [] => []
  | c :: rest =>
    if isPunctCp c then 32 :: punctRunsToSpace (rest.dropWhile isPunctCp)
    else c :: punctRunsToSpace rest
termination_by l => l.length
decreasing_by
  · exact Nat.lt_succ_of_le (List.Sublist.length_le (List.dropWhile_sublist _))
  · simp

/-- Python `str.upper` on this repertoire: ASCII letters and the plain
Greek block (the accented letters are decomposed and stripped before
`upper()` runs in the pipeline). -/
def pyUpper (c : Nat) : Nat :=
  if 97 ≤ c ∧ c ≤ 122 then c - 32
  else if (945 ≤ c ∧ c ≤ 961) ∨ (963 ≤ c ∧ c ≤ 969) then c - 32
  else if c = 962 then 931
  else c

/-- The transliteration dict of `_greek_to_ascii`
(benchmark_evaluation.py lines 67-76): uppercase Greek, lunate sigma,
accented capitals, and the lowercase fallbacks. -/
def greekMap : List (Nat × Str) :=
  [(913, [65]), (914, [86]), (915, [71]), (916, [68]), (917, [69]), (918, [90]),
   (919, [73]), (920, [84, 72]), (921, [73]), (922, [75]), (923, [76]),
   (924, [77]), (925, [78]), (926, [88]), (927, [79]), (928, [80]), (929, [82]),
   (931, [83]), (932, [84]), (933, [89]), (934, [70]), (935, [67, 72]),
   (936, [80, 83]), (937, [79]),
   (1017, [83]),
   (902, [65]), (904, [69]), (906, [73]), (905, [73]), (908, [79]),
   (910, [89]), (911, [79]),
   (945, [65]), (946, [86]), (947, [71]), (948, [68]), (949, [69]), (950, [90]),
   (951, [73]), (952, [84, 72]), (953, [73]), (954, [75]), (955, [76]),
   (956, [77]), (957, [78]), (958, [88]), (959, [79]), (960, [80]), (961, [82]),
   (963, [83]), (962, [83]), (964, [84]), (965, [89]), (966, [70]),
   (967, [67, 72]), (968, [80, 83]), (969, [79])]

def greekToAscii (c : Nat) : Str := (greekMap.lookup c).getD [c]

/-- Models `_greek_to_ascii` (benchmark_evaluation.py lines 62-80). -/
def greek_to_ascii (s : Str) : Str := s.flatMap greekToAscii

/-- Models `CORPORATE_TOKENS` (benchmark_evaluation.py lines 54-56). -/
def CORPORATE_TOKENS : List Str :=
  [strCp "AE", strCp "ΑΕ", strCp "Α.Ε.", strCp "ΕΕ", strCp "Ε.Ε.",
   strCp "ΟΕ", strCp "Ο.Ε.", strCp "ΙΚΕ", strCp "Ι.Κ.Ε.",
   strCp "ΜΟΝΟΠΡΟΣΩΠΗ", strCp "ΑΝΩΝΥΜΗ", strCp "ΕΤΑΙΡΕΙΑ",
   strCp "ΜΟΝΟΠΡΟΣΩΠΗΑΕ", strCp "ΜΟΝΟΠΡΟΣΩΠΗΑ.Ε.", strCp "LLC",
   strCp "P.C.", strCp "PC", strCp "IKE"]

/-- Non-whitespace characters (the token characters of `str.split()`). -/
def notWs (d : Nat) : Bool := !isPySpace d

/-- Python `str.split()` with no separator: maximal non-whitespace runs,
never empty. -/
def pySplit : Str → List Str
  | [] => []
  | c :: rest =>
    if isPySpace c then pySplit rest
    else (c :: rest.takeWhile notWs) :: pySplit (rest.dropWhile notWs)
termination_by l => l.length
decreasing_by
  · simp
  · exact Nat.lt_succ_of_le (List.Sublist.length_le (List.dropWhile_sublist _))

/-- Models `" ".join(tokens)`. -/
def joinSpace (ts : List Str) : Str := (ts.intersperse [32]).flatten

/-- Models `s.replace("\xa0", " ").replace("\u00a0", " ")`: both replaces map
NBSP to a plain space. -/
def nbspToSpace (s : Str) : Str := s.map (fun c => if c = 160 then 32 else c)

/-- Models `s.replace("…", " ")`. -/
def ellipsisToSpace (s : Str) : Str := s.map (fun c => if c = 8230 then 32 else c)

/-- Models `s.replace("/", " ")`. -/
def slashToSpace (s : Str) : Str := s.map (fun c => if c = 47 then 32 else c)

/-- The token filter `t and t not in CORPORATE_TOKENS`. -/
def isGoodTok (t : Str) : Bool := decide (t ≠ [] ∧ t ∉ CORPORATE_TOKENS)

/-- The character-level stages of `normalize_owner_component`
(benchmark_evaluation.py lines 85-97), before tokenization. -/
def normStages (s : Str) : Str :=
  let s1 := nbspToSpace s
  let s2 := strip_accents s1
  let s3 := removeParens s2
  let s4 := ellipsisToSpace s3
  let s5 := punctRunsToSpace s4
  let s6 := slashToSpace s5
  let s7 := s6.map pyUpper
  greek_to_ascii s7

/-- Models `normalize_owner_component` (benchmark_evaluation.py lines 82-100):
NBSP→space (the two replaces), accent stripping, parenthetical removal,
ellipsis→space, punctuation-run→space, slash→space, uppercase, Greek→Latin
transliteration, tokenization, corporate-token removal, single-space
rejoin. -/
def normalize_owner_component (s : Str) : Str :=
  if s = [] then []
  else joinSpace ((pySplit (normStages s)).filter isGoodTok)

/-- The `Owner` dataclass: raw surname and given-name fields. -/
structure Owner where
  surname : Str
  name : Str

/-- Models `Owner.key`: the pair of normalized components. -/
def Owner.key (o : Owner) : Str × Str :=
  (normalize_owner_component o.surname, normalize_owner_component o.name)

/-- Models `Owner.signature`: the order-insensitive set of the non-empty tokens
of `normalized surname + " " + normalized name`. -/
def Owner.signature (o : Owner) : Finset Str :=
  ((pySplit (o.key.1 ++ 32 :: o.key.2)).filter (fun t => t ≠ [])).toFinset

/-- Remove the first list element matched by `p` (`none` if no match);
models the inner `for j, p in enumerate(pred_remaining)` scan with its
`used_pred` bookkeeping. -/
def removeFirstMatch (p : Owner → Bool) : List Owner → Option (List Owner)
  | [] => none
  | x :: xs => if p x then some xs else (removeFirstMatch p xs).map (fun r => x :: r)

/-- One greedy matching phase of `match_owners`: walk the ground-truth
list in order, each time removing the first still-unmatched prediction
accepted by `f`; returns (matches, unmatched ground truth, unmatched
predictions). -/
def matchPhase (f : Owner → Owner → Bool) :
    List Owner → List Owner → Nat × List Owner × List Owner
  | [], pred => (0, [], pred)
  | g :: gs, pred =>
    match removeFirstMatch (fun p => f g p) pred with
    | some pred1 =>
      let r := matchPhase f gs pred1
      (r.1 + 1, r.2.1, r.2.2)
    | none =>
      let r := matchPhase f gs pred
      (r.1, g :: r.2.1, r.2.2)

/-- Models `match_owners` (benchmark_evaluation.py lines 118-157): phase 1 on
exact normalized key pairs, phase 2 on equal non-empty token signatures;
returns `(tp, fp, fn)`. -/
def match_owners (gt pred : List Owner) : Nat × Nat × Nat :=
  let ph1 := matchPhase (fun g p => decide (p.key = g.key)) gt pred
  let ph2 := matchPhase
    (fun g p => decide (p.signature = g.signature ∧ g.signature ≠ ∅)) ph1.2.1 ph1.2.2
  (ph1.1 + ph2.1, ph2.2.2.length, ph2.2.1.length)

def isParen (c : Nat) : Bool := c == 40 || c == 41

/-- The parenthesis skeleton of a string. -/
def parensOf (l : Str) : Str := l.filter isParen

/-- No opening parenthesis is followed by a closing one (so the regex
`\([^)]*\)` has no match). -/
def pfOK : Str → Prop
  | [] => True
  | c :: rest => (c = 40 → 41 ∉ rest) ∧ pfOK rest

/-- Characters that every pre-tokenization stage leaves unchanged. -/
def PreChar (c : Nat) : Prop :=
  nfdTable.lookup c = none ∧ isMn c = false ∧ c ≠ 160 ∧ c ≠ 8230 ∧
  isPunctCp c = false ∧ c ≠ 47

/-- Characters fixed by the whole character pipeline, including `upper()`
and the Greek transliteration. -/
def KeepChar (c : Nat) : Prop :=
  PreChar c ∧ pyUpper c = c ∧ greekMap.lookup c = none

/-! ## Lemmas and claim theorems -/

theorem splitSep_ne_nil (sep : Nat) (l : Str) : splitSep sep l ≠ [] := by
  induction l with
  | nil => simp [splitSep]
  | cons c rest ih =>
    simp only [splitSep]
    split
    · simp
    · cases h : splitSep sep rest <;> simp

theorem splitSep_length (sep : Nat) (l : Str) :
    (splitSep sep l).length = l.count sep + 1 := by
  induction l with
  | nil => simp [splitSep]
  | cons c rest ih =>
    simp only [splitSep]
    by_cases h : c = sep
    · subst h
      simp [List.count_cons, ih]
    · simp only [if_neg h]
      cases hs : splitSep sep rest with
      | nil => exact absurd hs (splitSep_ne_nil sep rest)
      | cons a t =>
        simp only [List.length_cons]
        rw [hs] at ih
        simp only [List.length_cons] at ih
        simp [List.count_cons, h, ih]

theorem splitSep_of_count_zero (sep : Nat) (l : Str) (h : l.count sep = 0) :
    splitSep sep l = [l] := by
  induction l with
  | nil => simp [splitSep]
  | cons c rest ih =>
    simp only [List.count_cons] at h
    have hc : c ≠ sep := by
      intro hcc
      simp [hcc] at h
    have hr : rest.count sep = 0 := by
      by_cases hb : c == sep <;> simp [hb] at h <;> omega
    simp [splitSep, hc, ih hr]

theorem resolveDots_no_dot (v : Str) (h : v.count 46 = 0) : resolveDots v = v := by
  simp [resolveDots, h]

theorem resolveDots_groups (v : Str)
    (h1 : 1 < (splitSep 46 v).length)
    (h2 : (splitSep 46 v).tail.all (fun p => p.length == 3) = true) :
    resolveDots v = (splitSep 46 v).flatten := by
  have hc : v.count 46 ≠ 0 := by
    intro hc0
    rw [splitSep_length] at h1
    omega
  simp only [resolveDots, if_neg hc]
  rw [if_pos ⟨h1, h2⟩]

theorem resolveDots_single_group (v : Str) (p0 p1 : Str)
    (h : splitSep 46 v = [p0, p1]) (h3 : p1.length = 3) :
    resolveDots v = p0 ++ p1 := by
  have := resolveDots_groups v (by rw [h]; simp) (by rw [h]; simp [h3])
  rw [h] at this
  simpa using this

theorem resolveDots_decimal (v : Str) (p0 p1 : Str)
    (h : splitSep 46 v = [p0, p1]) (hlen : p1.length = 1 ∨ p1.length = 2) :
    resolveDots v = p0 ++ 46 :: p1 := by
  have hc : v.count 46 ≠ 0 := by
    intro hc0
    have := splitSep_of_count_zero 46 v hc0
    rw [h] at this
    simp at this
  have hall : ((splitSep 46 v).tail.all (fun p => p.length == 3)) = false := by
    rw [h]
    rcases hlen with h1 | h1 <;> simp [h1]
  simp only [resolveDots, if_neg hc]
  rw [if_neg (by rw [hall]; simp)]
  rw [if_neg (by rw [h]; simp; intro hl; omega)]
  rw [if_pos (by rw [h]; simp; omega)]
  rw [h]
  simp

theorem resolveDots_otherwise (v : Str)
    (hc : v.count 46 ≠ 0)
    (h2 : (splitSep 46 v).tail.all (fun p => p.length == 3) = false)
    (h3 : ∀ p0 p1 : Str, splitSep 46 v = [p0, p1] →
      ¬(1 ≤ p1.length ∧ p1.length ≤ 2)) :
    resolveDots v = (splitSep 46 v).flatten := by
  have hlen2 : ∀ p0 p1 : Str, splitSep 46 v = [p0, p1] → p1.length ≠ 3 := by
    intro p0 p1 hsp hl
    rw [hsp] at h2
    simp [hl] at h2
  simp only [resolveDots, if_neg hc]
  rw [if_neg (by rw [h2]; simp)]
  rw [if_neg ?hb2]
  case hb2 =>
    rintro ⟨hl2, hg3⟩
    rcases hsp : splitSep 46 v with _ | ⟨a, _ | ⟨b, _ | t⟩⟩ <;> rw [hsp] at hl2 <;>
      simp at hl2
    rw [hsp] at hg3
    simp at hg3
    exact hlen2 a b hsp hg3
  rw [if_neg ?hb3]
  case hb3 =>
    rintro ⟨hl2, hbnd⟩
    rcases hsp : splitSep 46 v with _ | ⟨a, _ | ⟨b, _ | t⟩⟩ <;> rw [hsp] at hl2 <;>
      simp at hl2
    rw [hsp] at hbnd
    simp at hbnd
    exact h3 a b hsp hbnd

/-- C1.  Both embedded parsers resolve dots by the ordered trailing-digit
heuristic: with a comma, the comma is the decimal separator and dots before
it are removed; with no comma, all-3-digit groups after the first mean
thousands, a single dot with 3 trailing digits means thousands, a single
dot with 1-2 trailing digits means decimal, and otherwise all dots are
removed.  In particular `parseNumber("1.234") = 1234`, `"7.5" = 7.5`,
`"1.234,56" = 1234.56`, `"-1.234,56" = -1234.56`, `"1.0" = 1.0` and
`"--"` is absent, for both `parse_eu_number` and `parse_float`. -/
theorem c1_parse_number_heuristic :
    (parse_eu_number (strCp "1.234") = some 1234 ∧
      parse_float (strCp "1.234") = some 1234) ∧
    (parse_eu_number (strCp "7.5") = some (15 / 2) ∧
      parse_float (strCp "7.5") = some (15 / 2)) ∧
    (parse_eu_number (strCp "1.234,56") = some (123456 / 100) ∧
      parse_float (strCp "1.234,56") = some (123456 / 100)) ∧
    (parse_eu_number (strCp "-1.234,56") = some (-(123456 / 100)) ∧
      parse_float (strCp "-1.234,56") = some (-(123456 / 100))) ∧
    (parse_eu_number (strCp "1.0") = some 1 ∧
      parse_float (strCp "1.0") = some 1) ∧
    (parse_eu_number (strCp "--") = none ∧
      parse_float (strCp "--") = none) ∧
    (∀ v : Str, v.count 46 = 0 → resolveDots v = v) ∧
    (∀ v : Str, 1 < (splitSep 46 v).length →
      (splitSep 46 v).tail.all (fun p => p.length == 3) = true →
      resolveDots v = (splitSep 46 v).flatten) ∧
    (∀ v p0 p1 : Str, splitSep 46 v = [p0, p1] → p1.length = 3 →
      resolveDots v = p0 ++ p1) ∧
    (∀ v p0 p1 : Str, splitSep 46 v = [p0, p1] →
      p1.length = 1 ∨ p1.length = 2 → resolveDots v = p0 ++ 46 :: p1) ∧
    (∀ v : Str, v.count 46 ≠ 0 →
      (splitSep 46 v).tail.all (fun p => p.length == 3) = false →
      (∀ p0 p1 : Str, splitSep 46 v = [p0, p1] →
        ¬(1 ≤ p1.length ∧ p1.length ≤ 2)) →
      resolveDots v = (splitSep 46 v).flatten) :=
  ⟨⟨by with_unfolding_all rfl, by with_unfolding_all rfl⟩,
    ⟨by with_unfolding_all rfl, by with_unfolding_all rfl⟩,
    ⟨by with_unfolding_all rfl, by with_unfolding_all rfl⟩,
    ⟨by with_unfolding_all rfl, by with_unfolding_all rfl⟩,
    ⟨by with_unfolding_all rfl, by with_unfolding_all rfl⟩,
    ⟨by with_unfolding_all rfl, by with_unfolding_all rfl⟩,
    resolveDots_no_dot,
    resolveDots_groups,
    resolveDots_single_group,
    resolveDots_decimal,
    resolveDots_otherwise⟩

/-- Witness for C1: the universal conjuncts applied at concrete inputs
("1834" has no dot; "1.834" splits into a 3-digit group; "7.5" has a
single 1-digit trailing group; "1.23.4" falls to the otherwise branch). -/
theorem c1_parse_number_heuristic_witness :
    resolveDots (strCp "1834") = strCp "1834" ∧
    resolveDots (strCp "1.834") = strCp "1834" ∧
    resolveDots (strCp "7.5") = strCp "7" ++ 46 :: strCp "5" ∧
    resolveDots (strCp "1.23.4") = strCp "1234" := by
  refine ⟨?_, ?_, ?_, ?_⟩
  · exact (c1_parse_number_heuristic.2.2.2.2.2.2.1) (strCp "1834") (by decide)
  · have h := (c1_parse_number_heuristic.2.2.2.2.2.2.2.2.1) (strCp "1.834")
      (strCp "1") (strCp "834") (by decide) (by decide)
    rw [h]; decide
  · exact (c1_parse_number_heuristic.2.2.2.2.2.2.2.2.2.1) (strCp "7.5")
      (strCp "7") (strCp "5") (by decide) (Or.inl (by decide))
  · have h := (c1_parse_number_heuristic.2.2.2.2.2.2.2.2.2.2) (strCp "1.23.4")
      (by decide) (by decide)
      (by intro p0 p1 hsp; rw [show splitSep 46 (strCp "1.23.4") =
        [strCp "1", strCp "23", strCp "4"] from by decide] at hsp; simp at hsp)
    rw [h]; decide

/-- C8.  Both parsers are total Lean functions into `Option ℚ` by
construction (no exceptions exist in the model); the placeholder inputs
`""`, `"-"`, `"--"` and every single ASCII letter yield absent. -/
theorem c8_parse_number_total :
    (parse_eu_number (strCp "") = none ∧ parse_float (strCp "") = none) ∧
    (parse_eu_number (strCp "-") = none ∧ parse_float (strCp "-") = none) ∧
    (parse_eu_number (strCp "--") = none ∧ parse_float (strCp "--") = none) ∧
    (∀ c : Nat, (65 ≤ c ∧ c ≤ 90) ∨ (97 ≤ c ∧ c ≤ 122) →
      parse_eu_number [c] = none ∧ parse_float [c] = none) := by
  refine ⟨⟨by decide, by decide⟩, ⟨by decide, by decide⟩, ⟨by decide, by decide⟩, ?_⟩
  rintro c (⟨h1, h2⟩ | ⟨h1, h2⟩) <;> interval_cases c <;> exact ⟨by decide, by decide⟩

/-- Witness for C8 at the single-letter placeholder `"X"`. -/
theorem c8_parse_number_total_witness :
    ((65 ≤ 88 ∧ 88 ≤ 90) ∨ (97 ≤ 88 ∧ 88 ≤ 122)) ∧
    parse_eu_number (strCp "X") = none ∧ parse_float (strCp "X") = none := by
  refine ⟨Or.inl (by decide), ?_⟩
  have h := c8_parse_number_total.2.2.2 88 (Or.inl (by decide))
  exact (by decide : strCp "X" = [88]) ▸ h

theorem dropWhile_append_of_nil {p : Nat → Bool} {l1 : Str} (l2 : Str)
    (h : l1.dropWhile p = []) : (l1 ++ l2).dropWhile p = l2.dropWhile p := by
  induction l1 with
  | nil => simp
  | cons a t ih =>
    by_cases hp : p a
    · rw [List.dropWhile_cons_of_pos hp] at h
      simp [List.dropWhile_cons_of_pos hp, ih h]
    · rw [List.dropWhile_cons_of_neg hp] at h
      simp at h

theorem dropWhile_append_of_ne_nil {p : Nat → Bool} {l1 : Str} (l2 : Str)
    (h : l1.dropWhile p ≠ []) : (l1 ++ l2).dropWhile p = l1.dropWhile p ++ l2 := by
  induction l1 with
  | nil => simp at h
  | cons a t ih =>
    by_cases hp : p a
    · rw [List.dropWhile_cons_of_pos hp] at h
      simp [List.dropWhile_cons_of_pos hp, ih h]
    · simp [List.dropWhile_cons_of_neg hp]

theorem pyStrip_cons_space {a : Nat} (l : Str) (h : isPySpace a = true) :
    pyStrip (a :: l) = pyStrip l := by
  simp [pyStrip, List.dropWhile_cons_of_pos h]

theorem pyStrip_concat_space {a : Nat} (l : Str) (h : isPySpace a = true) :
    pyStrip (l ++ [a]) = pyStrip l := by
  by_cases hd : l.dropWhile isPySpace = []
  · rw [pyStrip, dropWhile_append_of_nil [a] hd,
      List.dropWhile_cons_of_pos h, List.dropWhile_nil, List.rdropWhile_nil,
      pyStrip, hd, List.rdropWhile_nil]
  · rw [pyStrip, dropWhile_append_of_ne_nil [a] hd,
      List.rdropWhile_concat_pos _ _ _ h, pyStrip]

theorem parse_eu_number_strip_congr {s t : Str} (h : pyStrip s = pyStrip t) :
    parse_eu_number s = parse_eu_number t := by
  unfold parse_eu_number
  rw [h]

theorem parse_float_strip_congr {s t : Str} (h : pyStrip s = pyStrip t) :
    parse_float s = parse_float t := by
  unfold parse_float
  rw [h]

/-- C9, counterexample.  The claim "`parseNumber` applied to `s` wrapped in
double quotes returns the same result as `parseNumber(s)`" is false:
`parse_eu_number` never strips quotes (`"7.5"` quoted parses to absent,
unquoted to 7.5), and even `parse_float`, which does strip quotes, changes
its answer on `"7.50 "` because the quote stripping happens after the
whitespace stripping (750 quoted versus 7.5 unquoted). -/
theorem c9_quote_wrap_counterexample :
    parse_eu_number (strCp "\"7.5\"") = none ∧
    parse_eu_number (strCp "7.5") = some (15 / 2) ∧
    parse_float (strCp "\"7.50 \"") = some 750 ∧
    parse_float (strCp "7.50 ") = some (15 / 2) :=
  ⟨by decide, by with_unfolding_all rfl, by with_unfolding_all rfl,
    by with_unfolding_all rfl⟩

/-- C9, amended.  Both parsers strip surrounding whitespace and
non-breaking spaces before numeric interpretation (padding any input with
NBSP, U+00A0, never changes the result); `parse_float` additionally strips
surrounding double quotes, so `parse_float("\"7.5\"") = 7.5`, while
`parse_eu_number` does not strip quotes. -/
theorem c9_strip_amended :
    (∀ s : Str, parse_eu_number (160 :: s ++ [160]) = parse_eu_number s) ∧
    (∀ s : Str, parse_float (160 :: s ++ [160]) = parse_float s) ∧
    parse_float (strCp "\"7.5\"") = some (15 / 2) ∧
    parse_eu_number (strCp "\"7.5\"") = none ∧
    parse_eu_number (strCp " 7.5 ") = some (15 / 2) ∧
    parse_float (strCp " 7.5 ") = some (15 / 2) := by
  have hpad : ∀ s : Str, pyStrip (160 :: s ++ [160]) = pyStrip s := by
    intro s
    rw [show (160 :: s ++ [160] : Str) = (160 :: s) ++ [160] from rfl,
      pyStrip_concat_space _ (by decide), pyStrip_cons_space _ (by decide)]
  exact ⟨fun s => parse_eu_number_strip_congr (hpad s),
    fun s => parse_float_strip_congr (hpad s),
    by with_unfolding_all rfl, by decide,
    by with_unfolding_all rfl, by with_unfolding_all rfl⟩

theorem head_some_tail_eq {x y : Str} (h1 : x.head? = some 48) (h2 : x.tail = y) :
    x = 48 :: y := by
  cases x with
  | nil => simp at h1
  | cons c t =>
    simp only [List.head?_cons, Option.some.injEq] at h1
    simp only [List.tail_cons] at h2
    rw [h1, h2]

/-- C4.  `equivalent_kaek a b` holds iff `a = b`, or neither contains `/`
and one is the other prefixed with a single `0`; in particular
`equivalent_kaek("050097350003", "50097350003")` holds, the tolerance is
not cumulative, middle zeros get no tolerance, and distinct codes with a
slash are never equivalent. -/
theorem c4_equivalent_code :
    (∀ a b : Str, equivalent_kaek a b = true ↔
      (a = b ∨ (a.contains 47 = false ∧ b.contains 47 = false ∧
        (a = 48 :: b ∨ b = 48 :: a)))) ∧
    equivalent_kaek (strCp "050097350003") (strCp "50097350003") = true ∧
    equivalent_kaek (strCp "0050097350003") (strCp "50097350003") = false ∧
    equivalent_kaek (strCp "501") (strCp "5001") = false ∧
    equivalent_kaek (strCp "0123456/1") (strCp "123456/1") = false := by
  refine ⟨?_, by decide, by decide, by decide, by decide⟩
  intro a b
  by_cases h1 : a = b
  · simp [equivalent_kaek, h1]
  by_cases h2 : (a.contains 47 || b.contains 47) = true
  · have he : equivalent_kaek a b = false := by
      unfold equivalent_kaek
      rw [if_neg h1, if_pos h2]
    rw [he]
    simp only [Bool.false_eq_true, false_iff, not_or]
    refine ⟨h1, ?_⟩
    rintro ⟨hc1, hc2, _⟩
    rcases Bool.or_eq_true_iff.mp h2 with h | h
    · rw [hc1] at h; exact Bool.false_ne_true h
    · rw [hc2] at h; exact Bool.false_ne_true h
  · have hc1 : a.contains 47 = false := by
      cases hx : a.contains 47
      · rfl
      · exact absurd (by rw [hx]; simp) h2
    have hc2 : b.contains 47 = false := by
      cases hx : b.contains 47
      · rfl
      · exact absurd (by rw [hx]; simp) h2
    unfold equivalent_kaek
    rw [if_neg h1, if_neg h2]
    by_cases h3 : a.head? = some 48 ∧ a.tail = b
    · rw [if_pos h3]
      simp only [true_iff]
      exact Or.inr ⟨hc1, hc2, Or.inl (head_some_tail_eq h3.1 h3.2)⟩
    · rw [if_neg h3]
      by_cases h4 : b.head? = some 48 ∧ b.tail = a
      · rw [if_pos h4]
        simp only [true_iff]
        exact Or.inr ⟨hc1, hc2, Or.inr (head_some_tail_eq h4.1 h4.2)⟩
      · rw [if_neg h4]
        simp only [Bool.false_eq_true, false_iff, not_or]
        refine ⟨h1, ?_⟩
        rintro ⟨_, _, hz | hz⟩
        · exact h3 (by rw [hz]; exact ⟨rfl, rfl⟩)
        · exact h4 (by rw [hz]; exact ⟨rfl, rfl⟩)

theorem evalCoverageCells_go (cells : List (Option ℚ × Option ℚ)) (acc : CovAcc) :
    cells.foldl (fun a gp => cellStep gp.1 gp.2 a) acc =
      ⟨acc.cov_exact + cells.countP covExactP,
       acc.cov_total + cells.countP covBothP,
       acc.cov_diffs ++ cells.filterMap covDiffF⟩ := by
  induction cells generalizing acc with
  | nil => simp
  | cons gp rest ih =>
    rcases gp with ⟨g, p⟩
    rw [List.foldl_cons, ih, List.countP_cons, List.countP_cons, List.filterMap_cons]
    cases g with
    | none =>
      simp only [cellStep, covExactP, covBothP, covDiffF, Option.isSome_none,
        Bool.false_and, if_neg (by simp : ¬(false = true))]
      simp
    | some t =>
      cases p with
      | none =>
        simp only [cellStep, covExactP, covBothP, covDiffF, Option.isSome_none,
          Option.isSome_some, Bool.true_and, Bool.and_false, Bool.false_and,
          if_neg (by simp : ¬(false = true))]
        simp
      | some q =>
        have hexact : covExactP (some t, some q) = decide (|q - t| < 1 / 1000000) := by
          simp [covExactP, covBothP]
        have hboth : covBothP (some t, some q) = true := by simp [covBothP]
        have hdiff : covDiffF (some t, some q) = some |q - t| := rfl
        rw [hexact, hboth, hdiff]
        simp only [cellStep, CovAcc.mk.injEq]
        by_cases hq : |q - t| < 1 / 1000000 <;>
          simp [hq, Nat.add_assoc, Nat.add_comm, Nat.add_left_comm]

/-- C3, counterexample.  A cell whose ground truth is present but whose
prediction is missing leaves every counter untouched: in particular it is
NOT counted in the exact-cell-ratio denominator `cov_total`, contrary to
the claim. -/
theorem c3_coverage_cell_counterexample :
    evalCoverageCells [(some 1, none)] = ⟨0, 0, []⟩ ∧
    (evalCoverageCells [(some 1, none)]).cov_total ≠ 1 :=
  ⟨rfl, by decide⟩

/-- C3, amended.  For every (group, metric) cell: the cell is considered
only when the ground-truth value is present; a considered cell with a
numeric prediction counts as exact iff `|pred - truth| < 1e-6` and
contributes `|pred - truth|` to the difference list feeding MAE and RMSE;
and a cell whose ground truth is present but whose prediction is missing
is excluded from MAE/RMSE and also from the exact-cell-ratio denominator
(`cov_total` counts only cells where both sides are present). -/
theorem c3_coverage_cell_accounting (cells : List (Option ℚ × Option ℚ)) :
    (evalCoverageCells cells).cov_total = cells.countP covBothP ∧
    (evalCoverageCells cells).cov_exact = cells.countP covExactP ∧
    (evalCoverageCells cells).cov_diffs = cells.filterMap covDiffF := by
  rw [evalCoverageCells, evalCoverageCells_go]
  simp

theorem lookup_map_keys {β : Type} (f : Str → β) (keys : List Str) (key : Str)
    (h : key ∈ keys) :
    (keys.map (fun k => (k, f k))).lookup key = some (f key) := by
  induction keys with
  | nil => simp at h
  | cons a t ih =>
    by_cases hk : key = a
    · subst hk
      simp [List.lookup]
    · rcases List.mem_cons.mp h with h1 | h1
      · exact absurd h1 hk
      · simpa [List.lookup, beq_false_of_ne hk] using ih h1

/-- C6.  For every input map (however sparse), coverage orientation yields
exactly the 4 fixed group keys and, within each group, exactly the 7 fixed
metric keys; each cell holds the positional value of the metric's list when
present, and `0.0` when the label is absent or the positional value is
`None`. -/
theorem c6_orient_coverage (cov_map : List (Str × List (Option ℚ)))
    (hlen : ∀ p ∈ cov_map, p.2.length = 4) :
    (orient_coverage cov_map).map Prod.fst = GROUPS ∧
    (∀ gr ∈ orient_coverage cov_map, gr.2.map Prod.fst = COVERAGE_KEYS) ∧
    (∀ i : Nat, i < 4 → ∀ key ∈ COVERAGE_KEYS,
      ((orient_coverage cov_map).getD i ([], [])).2.lookup key =
        some ((((cov_map.lookup key).getD [none, none, none, none]).getD i none).getD 0)) := by
  refine ⟨?_, ?_, ?_⟩
  · rw [orient_coverage, List.map_map]
    have : (Prod.fst ∘ fun ic : Nat × Str =>
        ((ic.2 : Str), COVERAGE_KEYS.map (fun key =>
          (key, ((cov_map.lookup key).getD [none, none, none, none] |>.getD ic.1 none).getD 0)))) =
        Prod.snd := rfl
    rw [this, List.enum_map_snd]
  · intro gr hgr
    rw [orient_coverage] at hgr
    rcases List.mem_map.mp hgr with ⟨ic, _, hic⟩
    rw [← hic]
    simp [List.map_map]
    rfl
  · intro i hi key hkey
    have hrow : ∀ j : Nat, j < 4 →
        ((orient_coverage cov_map).getD j ([], [])).2 =
          COVERAGE_KEYS.map (fun k =>
            (k, ((cov_map.lookup k).getD [none, none, none, none] |>.getD j none).getD 0)) := by
      intro j hj
      interval_cases j <;> rfl
    rw [hrow i hi]
    exact lookup_map_keys _ COVERAGE_KEYS key hkey

/-- Witness for C6 at a one-key map holding `[some 1, none, some 2, some 3]`
for the building-volume metric. -/
theorem c6_orient_coverage_witness :
    (∀ p ∈ [(strCp "Όγκος κτιρίου (άνω εδάφους)",
        [some (1 : ℚ), none, some 2, some 3])], p.2.length = 4) ∧
    (orient_coverage [(strCp "Όγκος κτιρίου (άνω εδάφους)",
        [some (1 : ℚ), none, some 2, some 3])]).map Prod.fst = GROUPS := by
  have h := c6_orient_coverage
    [(strCp "Όγκος κτιρίου (άνω εδάφους)", [some (1 : ℚ), none, some 2, some 3])]
    (by simp)
  exact ⟨by simp, h.1⟩

/-- C7, counterexample.  A one-line table holding a single coverage row is
a parsed table with fewer than 2 rows, yet the coverage mapper does use it
(the claim says both mappers discard such tables). -/
theorem c7_coverage_short_table_counterexample :
    (parse_markdown_table [strCp "| Εμβ. κάλυψης κτιρίου | 1 | 2 | 3 | 4 |"]).length = 1 ∧
    parse_docling_coverage (strCp "| Εμβ. κάλυψης κτιρίου | 1 | 2 | 3 | 4 |") =
      [(strCp "Εμβ. κάλυψης κτιρίου", [some 1, some 2, some 3, some 4])] :=
  ⟨by decide, by with_unfolding_all rfl⟩

/-- C7, amended.  Rows that are entirely dash-separator cells are dropped
by `parse_markdown_table` (hence by both mappers); parsed tables with
fewer than 2 rows are discarded by the owner mapper; the coverage mapper
skips only empty parsed tables. -/
theorem c7_dash_rows_and_short_tables :
    (∀ lines : List Str, ∀ row ∈ parse_markdown_table lines, isDashRow row = false) ∧
    (∀ tbl : List (List Str), tbl.length < 2 → ownersFromTable tbl = []) ∧
    (∀ cov : List (Str × List (Option ℚ)), covFromTable cov [] = cov) := by
  refine ⟨?_, ?_, ?_⟩
  · intro lines row hrow
    rcases List.mem_filterMap.mp hrow with ⟨l0, _, hl⟩
    simp only at hl
    by_cases hp : startsPipe (pyRstrip l0) = true
    · rw [if_neg (by simp [hp])] at hl
      by_cases hd : isDashRow ((splitSep 124 (pyStripChar 124 (pyStrip (pyRstrip l0)))).map pyStrip) = true
      · rw [if_pos hd] at hl
        exact absurd hl (by simp)
      · rw [if_neg hd] at hl
        have : row = (splitSep 124 (pyStripChar 124 (pyStrip (pyRstrip l0)))).map pyStrip :=
          (Option.some.injEq _ _ ▸ hl).symm
        rw [this]
        exact Bool.not_eq_true _ |>.mp hd
    · rw [if_pos (by simp [hp])] at hl
      exact absurd hl (by simp)
  · intro tbl hlen
    rw [ownersFromTable, if_pos (Or.inr hlen)]
  · intro cov
    rw [covFromTable, if_pos rfl]

/-- Witness for C7's amended statement: a dash row is dropped from a
concrete two-line table, a concrete one-row table yields no owners, and an
empty parsed table leaves a concrete coverage dict unchanged. -/
theorem c7_dash_rows_and_short_tables_witness :
    isDashRow (strCp "---" :: [strCp "-"]) = true ∧
    (∀ row ∈ parse_markdown_table [strCp "| a | b |", strCp "| --- | - |"],
      isDashRow row = false) ∧
    ownersFromTable [[strCp "a", strCp "b"]] = [] ∧
    covFromTable [(strCp "x", [none, none, none, none])] [] =
      [(strCp "x", [none, none, none, none])] := by
  refine ⟨by decide, ?_, ?_, ?_⟩
  · exact fun row hrow =>
      c7_dash_rows_and_short_tables.1 [strCp "| a | b |", strCp "| --- | - |"] row hrow
  · exact c7_dash_rows_and_short_tables.2.1 [[strCp "a", strCp "b"]] (by decide)
  · exact c7_dash_rows_and_short_tables.2.2 [(strCp "x", [none, none, none, none])]

theorem afterFirst_length_le (sep : Nat) (l : Str) :
    (afterFirst sep l).length ≤ l.length := by
  induction l with
  | nil => simp [afterFirst]
  | cons c rest ih =>
    simp only [afterFirst]
    split
    · simp
    · exact le_trans ih (by simp)

theorem matchPhase_self (f : Owner → Owner → Bool) (hf : ∀ g, f g g = true)
    (l : List Owner) : matchPhase f l l = (l.length, [], []) := by
  induction l with
  | nil => rfl
  | cons g gs ih =>
    simp [matchPhase, removeFirstMatch, hf g, ih]

/-- C2.  Identical ground-truth and predicted owner lists of length n give
`(tp, fp, fn) = (n, 0, 0)`; and a predicted owner with the same non-empty
token signature as a ground-truth owner (e.g. both name tokens in the
surname field) is matched in phase 2, counting as a true positive. -/
theorem c2_match_owners_identical_and_signature :
    (∀ l : List Owner, match_owners l l = (l.length, 0, 0)) ∧
    (∀ g p : Owner, p.signature = g.signature → g.signature ≠ ∅ →
      match_owners [g] [p] = (1, 0, 0)) := by
  constructor
  · intro l
    have h1 := matchPhase_self (fun g p => decide (p.key = g.key))
      (fun g => by simp) l
    simp only [match_owners, h1]
    rfl
  · intro g p hsig hne
    by_cases hk : p.key = g.key
    · simp only [match_owners, matchPhase, removeFirstMatch, decide_eq_true hk,
        if_pos rfl]
      rfl
    · simp only [match_owners, matchPhase, removeFirstMatch,
        decide_eq_false hk, if_neg (by simp : ¬(false = true)), Option.map_none,
        decide_eq_true (show p.signature = g.signature ∧ g.signature ≠ ∅ from
          ⟨hsig, hne⟩), if_pos rfl]
      rfl

/-- Witness for C2: a two-element identical list, and the swapped-field
owner ΓΕΩΡΓΙΟΣ ΓΙΑΝΝΙΩΔΗΣ (both tokens in the surname field, empty given
name) matched against the properly split ground-truth owner. -/
theorem c2_match_owners_witness :
    match_owners [⟨strCp "ΓΙΑΝΝΙΩΔΗΣ", strCp "ΓΕΩΡΓΙΟΣ"⟩,
        ⟨strCp "ΠΑΠΑΔΟΠΟΥΛΟΣ", strCp "ΜΑΡΙΑ"⟩]
      [⟨strCp "ΓΙΑΝΝΙΩΔΗΣ", strCp "ΓΕΩΡΓΙΟΣ"⟩,
        ⟨strCp "ΠΑΠΑΔΟΠΟΥΛΟΣ", strCp "ΜΑΡΙΑ"⟩] = (2, 0, 0) ∧
    match_owners [⟨strCp "ΓΙΑΝΝΙΩΔΗΣ", strCp "ΓΕΩΡΓΙΟΣ"⟩]
      [⟨strCp "ΓΕΩΡΓΙΟΣ ΓΙΑΝΝΙΩΔΗΣ", strCp ""⟩] = (1, 0, 0) := by
  constructor
  · exact c2_match_owners_identical_and_signature.1
      [⟨strCp "ΓΙΑΝΝΙΩΔΗΣ", strCp "ΓΕΩΡΓΙΟΣ"⟩, ⟨strCp "ΠΑΠΑΔΟΠΟΥΛΟΣ", strCp "ΜΑΡΙΑ"⟩]
  · exact c2_match_owners_identical_and_signature.2
      ⟨strCp "ΓΙΑΝΝΙΩΔΗΣ", strCp "ΓΕΩΡΓΙΟΣ"⟩
      ⟨strCp "ΓΕΩΡΓΙΟΣ ΓΙΑΝΝΙΩΔΗΣ", strCp ""⟩
      (of_decide_eq_true (by with_unfolding_all rfl))
      (of_decide_eq_true (by with_unfolding_all rfl))

theorem removeFirstMatch_length (p : Owner → Bool) (l l1 : List Owner)
    (h : removeFirstMatch p l = some l1) : l1.length + 1 = l.length := by
  induction l generalizing l1 with
  | nil => simp [removeFirstMatch] at h
  | cons x xs ih =>
    simp only [removeFirstMatch] at h
    split at h
    · cases h
      rfl
    · cases hrec : removeFirstMatch p xs with
      | none => rw [hrec] at h; simp at h
      | some r =>
        rw [hrec] at h
        have h2 : x :: r = l1 := by simpa using h
        have h3 := ih r hrec
        rw [← h2]
        simp only [List.length_cons]
        omega

theorem matchPhase_counts (f : Owner → Owner → Bool) (gt pred : List Owner) :
    (matchPhase f gt pred).1 + (matchPhase f gt pred).2.1.length = gt.length ∧
    (matchPhase f gt pred).1 + (matchPhase f gt pred).2.2.length = pred.length := by
  induction gt generalizing pred with
  | nil => simp [matchPhase]
  | cons g gs ih =>
    simp only [matchPhase]
    cases hrm : removeFirstMatch (fun p => f g p) pred with
    | some pred1 =>
      have hl := removeFirstMatch_length _ pred pred1 hrm
      have := ih pred1
      simp only [List.length_cons]
      omega
    | none =>
      have := ih pred
      simp only [List.length_cons]
      omega

/-- C10.  For every pair of owner lists, `match_owners` returns
`(tp, fp, fn)` with `tp + fn = |ground truth|` and `tp + fp = |predicted|`;
hence `tp` never exceeds either length. -/
theorem c10_match_owners_conservation (gt pred : List Owner) :
    (match_owners gt pred).1 + (match_owners gt pred).2.2 = gt.length ∧
    (match_owners gt pred).1 + (match_owners gt pred).2.1 = pred.length ∧
    (match_owners gt pred).1 ≤ gt.length ∧
    (match_owners gt pred).1 ≤ pred.length := by
  simp only [match_owners]
  have h1 := matchPhase_counts (fun g p => decide (p.key = g.key)) gt pred
  have h2 := matchPhase_counts
    (fun g p => decide (p.signature = g.signature ∧ g.signature ≠ ∅))
    (matchPhase (fun g p => decide (p.key = g.key)) gt pred).2.1
    (matchPhase (fun g p => decide (p.key = g.key)) gt pred).2.2
  omega

theorem contains_iff_mem_cp (a : Nat) (l : Str) : l.contains a = true ↔ a ∈ l := by
  induction l with
  | nil => simp
  | cons c rest ih =>
    simp only [List.contains_cons, Bool.or_eq_true, beq_iff_eq, List.mem_cons, ih]

theorem mem_parensOf_41 (l : Str) : 41 ∈ parensOf l ↔ 41 ∈ l := by
  simp [parensOf, List.mem_filter, (by decide : isParen 41 = true)]

theorem pfOK_parensOf (l : Str) : pfOK l ↔ pfOK (parensOf l) := by
  induction l with
  | nil => simp [pfOK, parensOf]
  | cons c rest ih =>
    by_cases hp : isParen c = true
    · have : parensOf (c :: rest) = c :: parensOf rest := by
        simp [parensOf, List.filter_cons, hp]
      rw [this]
      simp only [pfOK, ih, mem_parensOf_41]
    · have : parensOf (c :: rest) = parensOf rest := by
        simp [parensOf, List.filter_cons, hp]
      rw [this]
      have hc : c ≠ 40 := by
        intro hc
        exact hp (by simp [hc, isParen])
      simp only [pfOK, ih]
      constructor
      · exact fun h => h.2
      · exact fun h => ⟨fun h40 => absurd h40 hc, h⟩

theorem removeParens_eq_self (l : Str) (h : pfOK l) : removeParens l = l := by
  induction l with
  | nil => simp [removeParens]
  | cons c rest ih =>
    obtain ⟨h1, h2⟩ := h
    rw [removeParens, if_neg, ih h2]
    rintro ⟨hc40, hc41⟩
    exact h1 hc40 ((contains_iff_mem_cp 41 rest).mp hc41)

theorem mem_afterFirst (sep : Nat) (l : Str) : ∀ c ∈ afterFirst sep l, c ∈ l := by
  induction l with
  | nil => simp [afterFirst]
  | cons a rest ih =>
    intro c hc
    simp only [afterFirst] at hc
    split at hc
    · exact List.mem_cons_of_mem a hc
    · exact List.mem_cons_of_mem a (ih c hc)

theorem not_mem_removeParens (l : Str) (h : 41 ∉ l) : 41 ∉ removeParens l := by
  induction l using removeParens.induct with
  | case1 => simp [removeParens]
  | case2 c rest hg ih =>
    refine absurd ((contains_iff_mem_cp 41 rest).mp hg.2) ?_
    exact fun hx => h (List.mem_cons_of_mem c hx)
  | case3 c rest hg ih =>
    rw [removeParens, if_neg hg]
    intro hmem
    rcases List.mem_cons.mp hmem with h1 | h1
    · exact h (h1 ▸ List.mem_cons_self c rest)
    · exact ih (fun hx => h (List.mem_cons_of_mem c hx)) h1

theorem pfOK_removeParens (l : Str) : pfOK (removeParens l) := by
  induction l using removeParens.induct with
  | case1 => simp [removeParens, pfOK]
  | case2 c rest hg ih =>
    rw [removeParens, if_pos hg]
    exact ⟨by simp, ih⟩
  | case3 c rest hg ih =>
    rw [removeParens, if_neg hg]
    refine ⟨fun h40 => ?_, ih⟩
    have hnc : 41 ∉ rest := by
      intro hx
      exact hg ⟨h40, (contains_iff_mem_cp 41 rest).mpr hx⟩
    exact not_mem_removeParens rest hnc

theorem isParen_eq_false {c : Nat} (h1 : c ≠ 40) (h2 : c ≠ 41) :
    isParen c = false := by
  simp [isParen, h1, h2]

theorem parensOf_cons (c : Nat) (l : Str) :
    parensOf (c :: l) = if isParen c = true then c :: parensOf l else parensOf l := by
  simp [parensOf, List.filter_cons]

theorem punct_not_paren {c : Nat} (h : isPunctCp c = true) : isParen c = false := by
  simp only [isPunctCp, Bool.or_eq_true, beq_iff_eq] at h
  exact isParen_eq_false (by omega) (by omega)

theorem ws_not_paren {c : Nat} (h : isPySpace c = true) : isParen c = false := by
  by_contra hp
  have h2 : isParen c = true := by
    rcases Bool.eq_false_or_eq_true (isParen c) with hx | hx
    · exact hx
    · exact absurd hx hp
  simp only [isParen, Bool.or_eq_true, beq_iff_eq] at h2
  rcases h2 with h2 | h2 <;> subst h2 <;> simp [isPySpace] at h

theorem parensOf_cons_of_not_paren {c : Nat} (l : Str) (h : isParen c = false) :
    parensOf (c :: l) = parensOf l := by
  simp [parensOf, List.filter_cons, h]

theorem parensOf_append (l1 l2 : Str) :
    parensOf (l1 ++ l2) = parensOf l1 ++ parensOf l2 := by
  simp [parensOf, List.filter_append]

theorem parensOf_map (f : Nat → Nat) (l : Str)
    (hf : ∀ c, f c = c ∨ (isParen (f c) = false ∧ isParen c = false)) :
    parensOf (l.map f) = parensOf l := by
  induction l with
  | nil => rfl
  | cons c rest ih =>
    rw [List.map_cons]
    rcases hf c with h | ⟨h1, h2⟩
    · rw [h, parensOf_cons, parensOf_cons, ih]
    · rw [parensOf_cons_of_not_paren _ h1, parensOf_cons_of_not_paren _ h2, ih]

theorem parensOf_dropWhile_punct (l : Str) :
    parensOf (l.dropWhile isPunctCp) = parensOf l := by
  induction l with
  | nil => rfl
  | cons c rest ih =>
    by_cases hp : isPunctCp c = true
    · rw [List.dropWhile_cons_of_pos hp, ih, parensOf_cons_of_not_paren _ (punct_not_paren hp)]
    · rw [List.dropWhile_cons_of_neg (by simp [hp])]

theorem parensOf_punctRuns (l : Str) :
    parensOf (punctRunsToSpace l) = parensOf l := by
  induction l using punctRunsToSpace.induct with
  | case1 => simp [punctRunsToSpace]
  | case2 c rest hp ih =>
    rw [punctRunsToSpace, if_pos hp,
      parensOf_cons_of_not_paren _ (by decide : isParen 32 = false), ih,
      parensOf_dropWhile_punct, parensOf_cons_of_not_paren _ (punct_not_paren hp)]
  | case3 c rest hp ih =>
    rw [punctRunsToSpace, if_neg hp, parensOf_cons, parensOf_cons, ih]

theorem lookup_is_key {β : Type} (t : List (Nat × β)) (k : Nat) (v : β)
    (h : t.lookup k = some v) : ∃ p ∈ t, p.1 = k ∧ p.2 = v := by
  induction t with
  | nil => simp [List.lookup] at h
  | cons p rest ih =>
    rw [List.lookup] at h
    cases hk : (k == p.1) with
    | true =>
      rw [hk] at h
      have h2 : some p.2 = some v := h
      exact ⟨p, List.mem_cons_self p rest, (beq_iff_eq.mp hk).symm,
        Option.some.inj h2⟩
    | false =>
      rw [hk] at h
      obtain ⟨q, hq, hq2⟩ := ih h
      exact ⟨q, List.mem_cons_of_mem p hq, hq2⟩

theorem parensOf_eq_nil_of_no_paren (l : Str) (h : ∀ c ∈ l, isParen c = false) :
    parensOf l = [] := by
  simp only [parensOf, List.filter_eq_nil_iff]
  intro a ha
  simp [h a ha]

theorem greekMap_keys_large : ∀ p ∈ greekMap, 902 ≤ p.1 := by decide

theorem greekMap_values_ascii : ∀ p ∈ greekMap, ∀ c ∈ p.2, 65 ≤ c ∧ c ≤ 90 := by
  decide

theorem parensOf_greek (l : Str) : parensOf (greek_to_ascii l) = parensOf l := by
  induction l with
  | nil => rfl
  | cons c rest ih =>
    rw [greek_to_ascii, List.flatMap_cons, ← greek_to_ascii, parensOf_append, ih]
    cases hg : greekMap.lookup c with
    | none =>
      rw [greekToAscii, hg, Option.getD_none, ← parensOf_append]
      rfl
    | some v =>
      obtain ⟨p, hp, hk, hv⟩ := lookup_is_key greekMap c v hg
      have hkey : 902 ≤ c := hk ▸ greekMap_keys_large p hp
      have hvals := hv ▸ greekMap_values_ascii p hp
      rw [greekToAscii, hg, Option.getD_some,
        parensOf_eq_nil_of_no_paren v
          (fun d hd => isParen_eq_false (by have := hvals d hd; omega)
            (by have := hvals d hd; omega)),
        parensOf_cons_of_not_paren _ (isParen_eq_false (by omega) (by omega))]
      simp [parensOf]

theorem joinSpace_nil : joinSpace [] = [] := rfl

theorem joinSpace_cons (t : Str) (ts : List Str) :
    joinSpace (t :: ts) = t ++ (if ts = [] then [] else 32 :: joinSpace ts) := by
  cases ts with
  | nil => simp [joinSpace, List.intersperse]
  | cons t2 ts2 =>
    simp only [joinSpace, List.intersperse, List.flatten_cons, if_neg
      (by simp : ¬(t2 :: ts2 = []))]
    rfl

theorem parensOf_joinSpace_cons (t : Str) (ts : List Str) :
    parensOf (joinSpace (t :: ts)) = parensOf t ++ parensOf (joinSpace ts) := by
  rw [joinSpace_cons, parensOf_append]
  cases ts with
  | nil => simp [parensOf, joinSpace_nil]
  | cons t2 ts2 =>
    rw [if_neg (by simp : ¬(t2 :: ts2 = [])),
      parensOf_cons_of_not_paren _ (by decide : isParen 32 = false)]

theorem corp_tokens_no_parens : ∀ t ∈ CORPORATE_TOKENS, parensOf t = [] := by decide

theorem isGoodTok_false_parens (t : Str) (h : isGoodTok t = false) :
    parensOf t = [] := by
  simp only [isGoodTok, decide_eq_false_iff_not, not_and, not_not] at h
  by_cases ht : t = []
  · rw [ht]; rfl
  · exact corp_tokens_no_parens t (h ht)

theorem bool_eq_false {b : Bool} (h : ¬ b = true) : b = false := by
  cases b
  · rfl
  · exact absurd rfl h

theorem parensOf_split_join (l : Str) :
    parensOf (joinSpace ((pySplit l).filter isGoodTok)) = parensOf l := by
  induction l using pySplit.induct with
  | case1 => rw [pySplit]; rfl
  | case2 c rest hws ih =>
    rw [pySplit, if_pos hws, ih, parensOf_cons_of_not_paren _ (ws_not_paren hws)]
  | case3 c rest hws ih =>
    rw [pySplit, if_neg hws, List.filter_cons]
    have hsplit : (c :: rest : Str) =
        (c :: rest.takeWhile notWs) ++ rest.dropWhile notWs := by
      rw [List.cons_append, List.takeWhile_append_dropWhile]
    by_cases hg : isGoodTok (c :: rest.takeWhile notWs) = true
    · rw [if_pos hg, parensOf_joinSpace_cons, ih]
      conv_rhs => rw [hsplit]
      rw [parensOf_append]
    · rw [if_neg hg, ih]
      conv_rhs => rw [hsplit]
      rw [parensOf_append, isGoodTok_false_parens _ (bool_eq_false hg)]
      simp

theorem hf_nbsp : ∀ c : Nat, (if c = 160 then 32 else c) = c ∨
    (isParen (if c = 160 then 32 else c) = false ∧ isParen c = false) := by
  intro c
  by_cases h : c = 160
  · exact Or.inr (by subst h; simp [isParen])
  · exact Or.inl (by simp [h])

theorem hf_ellipsis : ∀ c : Nat, (if c = 8230 then 32 else c) = c ∨
    (isParen (if c = 8230 then 32 else c) = false ∧ isParen c = false) := by
  intro c
  by_cases h : c = 8230
  · exact Or.inr (by subst h; simp [isParen])
  · exact Or.inl (by simp [h])

theorem hf_slash : ∀ c : Nat, (if c = 47 then 32 else c) = c ∨
    (isParen (if c = 47 then 32 else c) = false ∧ isParen c = false) := by
  intro c
  by_cases h : c = 47
  · exact Or.inr (by subst h; simp [isParen])
  · exact Or.inl (by simp [h])

theorem hf_pyUpper : ∀ c : Nat, pyUpper c = c ∨
    (isParen (pyUpper c) = false ∧ isParen c = false) := by
  intro c
  unfold pyUpper
  split_ifs with h1 h2 h3
  · exact Or.inr ⟨isParen_eq_false (by omega) (by omega),
      isParen_eq_false (by omega) (by omega)⟩
  · exact Or.inr ⟨isParen_eq_false (by omega) (by omega),
      isParen_eq_false (by omega) (by omega)⟩
  · exact Or.inr ⟨isParen_eq_false (by omega) (by omega),
      isParen_eq_false (by omega) (by omega)⟩
  · exact Or.inl rfl

theorem parensOf_normStages (s : Str) :
    parensOf (normStages s) =
      parensOf (removeParens (strip_accents (nbspToSpace s))) := by
  rw [normStages]
  rw [parensOf_greek, parensOf_map _ _ hf_pyUpper, slashToSpace,
    parensOf_map _ _ hf_slash, parensOf_punctRuns, ellipsisToSpace,
    parensOf_map _ _ hf_ellipsis]

theorem pfOK_normalize (s : Str) : pfOK (normalize_owner_component s) := by
  by_cases hs : s = []
  · rw [normalize_owner_component, if_pos hs]
    trivial
  · rw [normalize_owner_component, if_neg hs]
    rw [pfOK_parensOf, parensOf_split_join, parensOf_normStages,
      ← pfOK_parensOf]
    exact pfOK_removeParens _

theorem lookup_none_of_no_key {β : Type} (t : List (Nat × β)) (k : Nat)
    (h : ∀ p ∈ t, p.1 ≠ k) : t.lookup k = none := by
  induction t with
  | nil => rfl
  | cons p rest ih =>
    rw [List.lookup]
    have hk : (k == p.1) = false := by
      have := h p (List.mem_cons_self p rest)
      simp only [beq_eq_false_iff_ne, ne_eq]
      exact fun he => this he.symm
    rw [hk]
    exact ih (fun q hq => h q (List.mem_cons_of_mem p hq))

theorem nfdTable_keys_large : ∀ p ∈ nfdTable, 192 ≤ p.1 := by decide

theorem nfdTable_keys_not_upper_greek :
    ∀ p ∈ nfdTable, ¬(913 ≤ p.1 ∧ p.1 ≤ 937) := by decide

theorem nfdTable_out : ∀ p ∈ nfdTable, ∀ c ∈ p.2,
    nfdTable.lookup c = none ∧ c ≠ 160 := by decide

theorem nfd_lookup_none_small {c : Nat} (h : c < 192) :
    nfdTable.lookup c = none :=
  lookup_none_of_no_key _ _ (fun p hp => by have := nfdTable_keys_large p hp; omega)

theorem nfd_lookup_none_upper_greek {c : Nat} (h1 : 913 ≤ c) (h2 : c ≤ 937) :
    nfdTable.lookup c = none :=
  lookup_none_of_no_key _ _
    (fun p hp he => nfdTable_keys_not_upper_greek p hp (by omega))

theorem greek_lookup_none_small {c : Nat} (h : c < 902) :
    greekMap.lookup c = none :=
  lookup_none_of_no_key _ _ (fun p hp => by have := greekMap_keys_large p hp; omega)

theorem isMn_false_small {c : Nat} (h : c < 768 ∨ 879 < c) : isMn c = false := by
  apply bool_eq_false
  intro hx
  simp only [isMn, Bool.and_eq_true, decide_eq_true_eq] at hx
  omega

theorem isPunctCp_false_of {c : Nat} (h1 : 65 ≤ c) (h2 : c ≠ 96) :
    isPunctCp c = false := by
  apply bool_eq_false
  intro hx
  simp only [isPunctCp, Bool.or_eq_true, beq_iff_eq] at hx
  omega

theorem preChar_32 : PreChar 32 := by
  refine ⟨by decide, by decide, by decide, by decide, by decide, by decide⟩

theorem keepChar_32 : KeepChar 32 := by
  refine ⟨preChar_32, by decide, by decide⟩

theorem pyUpper_idem (c : Nat) : pyUpper (pyUpper c) = pyUpper c := by
  simp only [pyUpper]
  split_ifs <;> omega

theorem pyUpper_id_of_upper {c : Nat} (h1 : 65 ≤ c) (h2 : c ≤ 90) :
    pyUpper c = c := by
  simp only [pyUpper]
  split_ifs <;> omega

theorem preChar_upper {c : Nat} (h : PreChar c) : PreChar (pyUpper c) := by
  obtain ⟨hl, hm, h160, h8230, hp, h47⟩ := h
  simp only [pyUpper]
  split_ifs with h1 h2 h3
  · exact ⟨nfd_lookup_none_small (by omega), isMn_false_small (by omega),
      by omega, by omega, isPunctCp_false_of (by omega) (by omega), by omega⟩
  · exact ⟨nfd_lookup_none_upper_greek (by omega) (by omega),
      isMn_false_small (by omega), by omega, by omega,
      isPunctCp_false_of (by omega) (by omega), by omega⟩
  · exact ⟨nfd_lookup_none_upper_greek (by omega) (by omega),
      isMn_false_small (by omega), by omega, by omega,
      isPunctCp_false_of (by omega) (by omega), by omega⟩
  · exact ⟨hl, hm, h160, h8230, hp, h47⟩

theorem keep_of_upper_greek (e : Nat) (he : PreChar e) :
    ∀ c ∈ greekToAscii (pyUpper e), KeepChar c := by
  intro c hc
  cases hg : greekMap.lookup (pyUpper e) with
  | some v =>
    rw [greekToAscii, hg, Option.getD_some] at hc
    obtain ⟨p, hp, hk, hv⟩ := lookup_is_key greekMap (pyUpper e) v hg
    have hb := greekMap_values_ascii p hp c (hv ▸ hc)
    exact ⟨⟨nfd_lookup_none_small (by omega), isMn_false_small (by omega),
        by omega, by omega, isPunctCp_false_of (by omega) (by omega), by omega⟩,
      pyUpper_id_of_upper hb.1 hb.2, greek_lookup_none_small (by omega)⟩
  | none =>
    rw [greekToAscii, hg, Option.getD_none, List.mem_singleton] at hc
    subst hc
    exact ⟨preChar_upper he, pyUpper_idem e, hg⟩

theorem nbspToSpace_chars (l : Str) : ∀ c ∈ nbspToSpace l, c ≠ 160 := by
  intro c hc
  obtain ⟨d, _, hd⟩ := List.mem_map.mp hc
  by_cases h : d = 160
  · rw [← hd, if_pos h]; omega
  · rw [← hd, if_neg h]; exact h

theorem strip_accents_chars (l : Str) (hl : ∀ d ∈ l, d ≠ 160) :
    ∀ c ∈ strip_accents l,
      nfdTable.lookup c = none ∧ isMn c = false ∧ c ≠ 160 := by
  intro c hc
  rw [strip_accents, List.mem_filter] at hc
  obtain ⟨hmem, hnm⟩ := hc
  obtain ⟨d, hd, hcd⟩ := List.mem_flatMap.mp hmem
  have hmn : isMn c = false := by simpa using hnm
  rw [nfdDecomp] at hcd
  cases hnd : nfdTable.lookup d with
  | none =>
    rw [hnd, Option.getD_none, List.mem_singleton] at hcd
    subst hcd
    exact ⟨hnd, hmn, hl c hd⟩
  | some v =>
    rw [hnd, Option.getD_some] at hcd
    obtain ⟨p, hp, hk, hv⟩ := lookup_is_key nfdTable d v hnd
    have := nfdTable_out p hp c (hv ▸ hcd)
    exact ⟨this.1, hmn, this.2⟩

theorem removeParens_chars (l : Str) : ∀ c ∈ removeParens l, c ∈ l ∨ c = 32 := by
  induction l using removeParens.induct with
  | case1 => simp [removeParens]
  | case2 a rest hg ih =>
    intro c hc
    rw [removeParens, if_pos hg] at hc
    rcases List.mem_cons.mp hc with h | h
    · exact Or.inr h
    · rcases ih c h with h2 | h2
      · exact Or.inl (List.mem_cons_of_mem a (mem_afterFirst 41 rest c h2))
      · exact Or.inr h2
  | case3 a rest hg ih =>
    intro c hc
    rw [removeParens, if_neg hg] at hc
    rcases List.mem_cons.mp hc with h | h
    · exact Or.inl (h ▸ List.mem_cons_self a rest)
    · rcases ih c h with h2 | h2
      · exact Or.inl (List.mem_cons_of_mem a h2)
      · exact Or.inr h2

theorem ellipsisToSpace_chars (l : Str) :
    ∀ c ∈ ellipsisToSpace l, c = 32 ∨ (c ∈ l ∧ c ≠ 8230) := by
  intro c hc
  obtain ⟨d, hd, hcd⟩ := List.mem_map.mp hc
  by_cases h : d = 8230
  · rw [← hcd, if_pos h]; exact Or.inl rfl
  · rw [← hcd, if_neg h]; exact Or.inr ⟨hd, h⟩

theorem slashToSpace_chars (l : Str) :
    ∀ c ∈ slashToSpace l, c = 32 ∨ (c ∈ l ∧ c ≠ 47) := by
  intro c hc
  obtain ⟨d, hd, hcd⟩ := List.mem_map.mp hc
  by_cases h : d = 47
  · rw [← hcd, if_pos h]; exact Or.inl rfl
  · rw [← hcd, if_neg h]; exact Or.inr ⟨hd, h⟩

theorem punctRuns_chars (l : Str) :
    ∀ c ∈ punctRunsToSpace l, c = 32 ∨ (c ∈ l ∧ isPunctCp c = false) := by
  induction l using punctRunsToSpace.induct with
  | case1 => simp [punctRunsToSpace]
  | case2 a rest hp ih =>
    intro c hc
    rw [punctRunsToSpace, if_pos hp] at hc
    rcases List.mem_cons.mp hc with h | h
    · exact Or.inl h
    · rcases ih c h with h2 | ⟨h2, h3⟩
      · exact Or.inl h2
      · exact Or.inr ⟨List.mem_cons_of_mem a
          (List.Sublist.mem h2 (List.dropWhile_sublist _)), h3⟩
  | case3 a rest hp ih =>
    intro c hc
    rw [punctRunsToSpace, if_neg hp] at hc
    rcases List.mem_cons.mp hc with h | h
    · exact Or.inr ⟨h ▸ List.mem_cons_self a rest, h ▸ bool_eq_false hp⟩
    · rcases ih c h with h2 | ⟨h2, h3⟩
      · exact Or.inl h2
      · exact Or.inr ⟨List.mem_cons_of_mem a h2, h3⟩

theorem normStages_chars (s : Str) : ∀ c ∈ normStages s, KeepChar c := by
  intro c hc
  rw [normStages] at hc
  rw [greek_to_ascii] at hc
  obtain ⟨d, hd, hcd⟩ := List.mem_flatMap.mp hc
  obtain ⟨e, he, hde⟩ := List.mem_map.mp hd
  have hPre : PreChar e := by
    rcases slashToSpace_chars _ e he with h32 | ⟨he5, h47⟩
    · exact h32 ▸ preChar_32
    rcases punctRuns_chars _ e he5 with h32 | ⟨he4, hpu⟩
    · exact h32 ▸ preChar_32
    rcases ellipsisToSpace_chars _ e he4 with h32 | ⟨he3, h8230⟩
    · exact h32 ▸ preChar_32
    rcases removeParens_chars _ e he3 with he2 | h32
    swap
    · exact h32 ▸ preChar_32
    have h2 := strip_accents_chars _ (nbspToSpace_chars s) e he2
    exact ⟨h2.1, h2.2.1, h2.2.2, h8230, hpu, h47⟩
  exact keep_of_upper_greek e hPre c (hde ▸ hcd)

theorem map_id_mem {f : Nat → Nat} (l : Str) (h : ∀ c ∈ l, f c = c) :
    l.map f = l := by
  induction l with
  | nil => rfl
  | cons c rest ih =>
    rw [List.map_cons, h c (List.mem_cons_self c rest),
      ih (fun d hd => h d (List.mem_cons_of_mem c hd))]

theorem flatMap_id_mem {g : Nat → Str} (l : Str) (h : ∀ c ∈ l, g c = [c]) :
    l.flatMap g = l := by
  induction l with
  | nil => rfl
  | cons c rest ih =>
    rw [List.flatMap_cons, h c (List.mem_cons_self c rest),
      ih (fun d hd => h d (List.mem_cons_of_mem c hd))]
    rfl

theorem punctRuns_id (l : Str) (h : ∀ c ∈ l, isPunctCp c = false) :
    punctRunsToSpace l = l := by
  induction l with
  | nil => simp [punctRunsToSpace]
  | cons c rest ih =>
    rw [punctRunsToSpace,
      if_neg (by rw [h c (List.mem_cons_self c rest)]; simp),
      ih (fun d hd => h d (List.mem_cons_of_mem c hd))]

theorem strip_accents_id (l : Str)
    (h : ∀ c ∈ l, nfdTable.lookup c = none ∧ isMn c = false) :
    strip_accents l = l := by
  rw [strip_accents, flatMap_id_mem l
    (fun c hc => by rw [nfdDecomp, (h c hc).1, Option.getD_none])]
  rw [List.filter_eq_self.mpr]
  intro a ha
  simp [(h a ha).2]

theorem takeWhile_append_stop {p : Nat → Bool} (l1 : Str) (a : Nat) (l2 : Str)
    (h1 : ∀ c ∈ l1, p c = true) (h2 : p a = false) :
    (l1 ++ a :: l2).takeWhile p = l1 := by
  induction l1 with
  | nil => simp [List.takeWhile_cons, h2]
  | cons c rest ih =>
    rw [List.cons_append,
      List.takeWhile_cons_of_pos (h1 c (List.mem_cons_self c rest)),
      ih (fun d hd => h1 d (List.mem_cons_of_mem c hd))]

theorem dropWhile_append_stop {p : Nat → Bool} (l1 : Str) (a : Nat) (l2 : Str)
    (h1 : ∀ c ∈ l1, p c = true) (h2 : p a = false) :
    (l1 ++ a :: l2).dropWhile p = a :: l2 := by
  induction l1 with
  | nil => simp [List.dropWhile_cons, h2]
  | cons c rest ih =>
    rw [List.cons_append,
      List.dropWhile_cons_of_pos (h1 c (List.mem_cons_self c rest)),
      ih (fun d hd => h1 d (List.mem_cons_of_mem c hd))]

theorem takeWhile_all {p : Nat → Bool} (l : Str) (h : ∀ c ∈ l, p c = true) :
    l.takeWhile p = l := by
  induction l with
  | nil => rfl
  | cons c rest ih =>
    rw [List.takeWhile_cons_of_pos (h c (List.mem_cons_self c rest)),
      ih (fun d hd => h d (List.mem_cons_of_mem c hd))]

theorem dropWhile_all {p : Nat → Bool} (l : Str) (h : ∀ c ∈ l, p c = true) :
    l.dropWhile p = [] := by
  induction l with
  | nil => rfl
  | cons c rest ih =>
    rw [List.dropWhile_cons_of_pos (h c (List.mem_cons_self c rest)),
      ih (fun d hd => h d (List.mem_cons_of_mem c hd))]

/-- Tokens produced by `pySplit` are non-empty, whitespace-free, and drawn
from the input characters. -/
theorem pySplit_tokens (l : Str) :
    ∀ t ∈ pySplit l, t ≠ [] ∧ ∀ c ∈ t, isPySpace c = false ∧ c ∈ l := by
  induction l using pySplit.induct with
  | case1 => rw [pySplit]; simp
  | case2 a rest hws ih =>
    rw [pySplit, if_pos hws]
    intro t ht
    obtain ⟨hne, hch⟩ := ih t ht
    exact ⟨hne, fun c hc =>
      ⟨(hch c hc).1, List.mem_cons_of_mem a (hch c hc).2⟩⟩
  | case3 a rest hws ih =>
    rw [pySplit, if_neg hws]
    intro t ht
    rcases List.mem_cons.mp ht with h | h
    · subst h
      refine ⟨by simp, fun c hc => ?_⟩
      rcases List.mem_cons.mp hc with h2 | h2
      · exact ⟨h2 ▸ bool_eq_false hws, h2 ▸ List.mem_cons_self a rest⟩
      · have hp := List.mem_takeWhile_imp h2
        have hm : c ∈ rest :=
          List.Sublist.mem h2 (List.takeWhile_sublist _)
        exact ⟨by simpa [notWs] using hp, List.mem_cons_of_mem a hm⟩
    · obtain ⟨hne, hch⟩ := ih t h
      exact ⟨hne, fun c hc =>
        ⟨(hch c hc).1, List.mem_cons_of_mem a
          (List.Sublist.mem (hch c hc).2 (List.dropWhile_sublist _))⟩⟩

theorem mem_joinSpace (ts : List Str) :
    ∀ c ∈ joinSpace ts, c = 32 ∨ ∃ t ∈ ts, c ∈ t := by
  induction ts with
  | nil => simp [joinSpace_nil]
  | cons t rest ih =>
    intro c hc
    rw [joinSpace_cons] at hc
    rcases List.mem_append.mp hc with h | h
    · exact Or.inr ⟨t, List.mem_cons_self t rest, h⟩
    · by_cases hr : rest = []
      · rw [if_pos hr] at h
        simp at h
      · rw [if_neg hr] at h
        rcases List.mem_cons.mp h with h2 | h2
        · exact Or.inl h2
        · rcases ih c h2 with h3 | ⟨u, hu, hcu⟩
          · exact Or.inl h3
          · exact Or.inr ⟨u, List.mem_cons_of_mem t hu, hcu⟩

/-- Splitting a space-join of non-empty whitespace-free tokens recovers
the tokens. -/
theorem pySplit_joinSpace (ts : List Str)
    (h : ∀ t ∈ ts, t ≠ [] ∧ ∀ c ∈ t, isPySpace c = false) :
    pySplit (joinSpace ts) = ts := by
  induction ts with
  | nil => rw [joinSpace_nil, pySplit]
  | cons t rest ih =>
    obtain ⟨hne, hch⟩ := h t (List.mem_cons_self t rest)
    cases t with
    | nil => exact absurd rfl hne
    | cons c tr =>
      have hcws : isPySpace c = false := hch c (List.mem_cons_self c tr)
      have htr : ∀ d ∈ tr, notWs d = true := by
        intro d hd
        simp [notWs, hch d (List.mem_cons_of_mem c hd)]
      rw [joinSpace_cons]
      by_cases hr : rest = []
      · rw [if_pos hr, List.append_nil, pySplit, if_neg (by simp [hcws]),
          takeWhile_all tr htr, dropWhile_all tr htr, pySplit, hr]
      · rw [if_neg hr, List.cons_append, pySplit, if_neg (by simp [hcws]),
          takeWhile_append_stop tr 32 (joinSpace rest) htr
            (by simp [notWs]; decide),
          dropWhile_append_stop tr 32 (joinSpace rest) htr
            (by simp [notWs]; decide),
          pySplit, if_pos (by decide : isPySpace 32 = true),
          ih (fun u hu => h u (List.mem_cons_of_mem (c :: tr) hu))]

/-- A space-join of non-empty, whitespace-free, stage-fixed, filter-passing
tokens with a match-free parenthesis skeleton is a fixed point of the
normalizer. -/
theorem normalize_fixed (ts : List Str)
    (htok : ∀ t ∈ ts, t ≠ [] ∧ (∀ c ∈ t, isPySpace c = false ∧ KeepChar c) ∧
      isGoodTok t = true)
    (hpf : pfOK (joinSpace ts)) :
    normalize_owner_component (joinSpace ts) = joinSpace ts := by
  have hmchar : ∀ c ∈ joinSpace ts, KeepChar c := by
    intro c hc
    rcases mem_joinSpace ts c hc with h32 | ⟨t, ht, hct⟩
    · exact h32 ▸ keepChar_32
    · exact ((htok t ht).2.1 c hct).2
  by_cases hm0 : joinSpace ts = []
  · rw [hm0]
    simp [normalize_owner_component]
  · rw [normalize_owner_component, if_neg hm0]
    have h1 : nbspToSpace (joinSpace ts) = joinSpace ts :=
      map_id_mem _ (fun c hc => by rw [if_neg (hmchar c hc).1.2.2.1])
    have h2 : strip_accents (joinSpace ts) = joinSpace ts :=
      strip_accents_id _ (fun c hc => ⟨(hmchar c hc).1.1, (hmchar c hc).1.2.1⟩)
    have h3 : removeParens (joinSpace ts) = joinSpace ts :=
      removeParens_eq_self _ hpf
    have h4 : ellipsisToSpace (joinSpace ts) = joinSpace ts :=
      map_id_mem _ (fun c hc => by rw [if_neg (hmchar c hc).1.2.2.2.1])
    have h5 : punctRunsToSpace (joinSpace ts) = joinSpace ts :=
      punctRuns_id _ (fun c hc => (hmchar c hc).1.2.2.2.2.1)
    have h6 : slashToSpace (joinSpace ts) = joinSpace ts :=
      map_id_mem _ (fun c hc => by rw [if_neg (hmchar c hc).1.2.2.2.2.2])
    have h7 : (joinSpace ts).map pyUpper = joinSpace ts :=
      map_id_mem _ (fun c hc => (hmchar c hc).2.1)
    have h8 : greek_to_ascii (joinSpace ts) = joinSpace ts :=
      flatMap_id_mem _ (fun c hc => by
        rw [greekToAscii, (hmchar c hc).2.2, Option.getD_none])
    have hst : normStages (joinSpace ts) = joinSpace ts := by
      simp only [normStages, nbspToSpace] at h1 ⊢
      rw [h1]
      rw [h2, h3]
      simp only [ellipsisToSpace] at h4 ⊢
      rw [h4, h5]
      simp only [slashToSpace] at h6 ⊢
      rw [h6, h7, h8]
    rw [hst,
      pySplit_joinSpace ts (fun t ht =>
        ⟨(htok t ht).1, fun c hc => ((htok t ht).2.1 c hc).1⟩),
      List.filter_eq_self.mpr (fun t ht => (htok t ht).2.2)]

/-- C5.  The owner-name normalizer is idempotent: running the full pipeline
(NBSP replacement, accent stripping, parenthetical removal,
punctuation-to-space, slash-to-space, uppercasing, Greek-to-Latin
transliteration, tokenization, corporate-token removal, single-space
rejoin) a second time changes nothing. -/
theorem c5_normalize_idempotent (s : Str) :
    normalize_owner_component (normalize_owner_component s) =
      normalize_owner_component s := by
  by_cases hs : s = []
  · subst hs
    simp [normalize_owner_component]
  · have hm : normalize_owner_component s =
        joinSpace ((pySplit (normStages s)).filter isGoodTok) := by
      rw [normalize_owner_component, if_neg hs]
    have htok : ∀ t ∈ (pySplit (normStages s)).filter isGoodTok,
        t ≠ [] ∧ (∀ c ∈ t, isPySpace c = false ∧ KeepChar c) ∧
          isGoodTok t = true := by
      intro t ht
      have hmem := List.mem_of_mem_filter ht
      have hgood := List.of_mem_filter ht
      obtain ⟨hne, hch⟩ := pySplit_tokens (normStages s) t hmem
      exact ⟨hne, fun c hc =>
        ⟨(hch c hc).1, normStages_chars s c (hch c hc).2⟩, hgood⟩
    have hpf : pfOK (joinSpace ((pySplit (normStages s)).filter isGoodTok)) :=
      hm ▸ pfOK_normalize s
    rw [hm]
    exact normalize_fixed _ htok hpf
